import Mathlib

/-!
Shallow embedding of the two analysis utilities of the ArgentTelemetry
repository:

* `Duplicate_author_text_rows.py` — finds repeated (author, text) pairs
  and exports all matching rows plus a multiplicity summary;
* `split_Cross_Channel_Authors.py` — finds authors whose rows span at
  least `min-channels` distinct non-empty channel names.

Cell values are modelled as `Option String`: `none` is a null/missing
cell, `some s` is a cell whose Python string form (`str(value)`) is `s`.
Whitespace and lower-casing are modelled at ASCII granularity, matching
the behaviour of the source on ASCII data.
-/

namespace ArgentTelemetry

/-- Python `str.strip()`: drop leading and trailing whitespace characters.
(ASCII whitespace; the source applies it to ASCII column names and values.) -/
def pyStrip (s : String) : String :=
  ⟨((s.data.dropWhile Char.isWhitespace).reverse.dropWhile Char.isWhitespace).reverse⟩

/-- Python `str.lower()` (ASCII case folding). -/
def pyLower (s : String) : String :=
  ⟨s.data.map Char.toLower⟩

/-- The Python lexicographic string comparison `s1 < s2`, by code point,
stated on the underlying character lists. -/
def charListLt : List Char → List Char → Bool
  | _, [] => false
  | [], _ :: _ => true
  | a :: as, b :: bs => decide (a < b) || (a == b && charListLt as bs)

/-- Python `s1 < s2` on strings. -/
def pyStrLt (a b : String) : Bool :=
  charListLt a.data b.data

/-- Python `s1 <= s2` on strings (total order: not `s2 < s1`). -/
def pyStrLe (a b : String) : Bool :=
  !(pyStrLt b a)

/-- Check that the pattern is an initial segment of the list. -/
def startsWithChars : List Char → List Char → Bool
  | [], _ => true
  | _ :: _, [] => false
  | a :: ps, b :: ls => a == b && startsWithChars ps ls

/-- Python `pat in hay` on character lists: the pattern occurs
contiguously somewhere. -/
def containsSub (pat : List Char) : List Char → Bool
  | [] => startsWithChars pat []
  | b :: rest => startsWithChars pat (b :: rest) || containsSub pat rest

/-- Python `pat in hay` on strings. -/
def strContainsSub (hay pat : String) : Bool :=
  containsSub pat.data hay.data

/-- Pandas `Series.astype(str)` renders a missing value (`NaN`) as the
string `"nan"`; a present cell keeps its string form. -/
def pandasStr : Option String → String
  | none => "nan"
  | some s => s

/-- The normalization used by `Duplicate_author_text_rows.py`
(lines 41 and 44/46): `.astype(str).fillna("")` followed by an optional
`.str.strip()`.  After `astype(str)` no missing value remains, so the
`.fillna("")` step is the identity. -/
def normalizeCell (v : Option String) (trim : Bool) : String :=
  let s := pandasStr v
  if trim then pyStrip s else s

/-- The `normalize(value, trim)` operation as the specification words it:
the string form of a null/missing cell is the empty string, and trimming
happens exactly when `trim` is true.  Stated only to compare with
`normalizeCell`, the operation the source actually performs. -/
def normalizeSpecModel (v : Option String) (trim : Bool) : String :=
  let s := match v with
    | none => ""
    | some s => s
  if trim then pyStrip s else s

/-- Terminal failures of either script.  `systemExit msg` models
`raise SystemExit(msg)`; `attributeError msg` models an uncaught
`AttributeError` (CPython wraps the names in single quotes, elided here). -/
inductive PyError where
  | systemExit (msg : String)
  | attributeError (msg : String)
deriving DecidableEq

instance {ε α : Type} [DecidableEq ε] [DecidableEq α] : DecidableEq (Except ε α) := fun a b =>
  match a, b with
  | .ok x, .ok y => decidable_of_iff (x = y) (by simp)
  | .error x, .error y => decidable_of_iff (x = y) (by simp)
  | .ok _, .error _ => isFalse (by simp)
  | .error _, .ok _ => isFalse (by simp)

/-! ## Duplicate_author_text_rows.py -/

/-- A data row of the duplicate analysis: the two key cells plus the
remaining cells, which the script never touches. -/
structure DupRow where
  author : Option String
  text : Option String
  rest : List (Option String)
deriving DecidableEq

/-- The comparison key of a dataset row.  Line 41 always strips the
author; lines 43–46 strip the text exactly when `--no-trim` is absent. -/
def dupKey (noTrim : Bool) (r : DupRow) : String × String :=
  (normalizeCell r.author true, normalizeCell r.text (!noTrim))

/-- Line 41 overwrites the author column of the working frame with its
normalized (string, stripped) form; all other cells are kept raw. -/
def workRow (r : DupRow) : DupRow :=
  { r with author := some (normalizeCell r.author true) }

/-- The working frame `work` (line 40–41): a copy of the dataset with
the author column normalized in place. -/
def dupWork (rows : List DupRow) : List DupRow :=
  rows.map workRow

/-- The comparison key as read off a working-frame row: the author cell
already holds its normalized form, the text norm is recomputed. -/
def dupKeyW (noTrim : Bool) (w : DupRow) : String × String :=
  (pandasStr w.author, normalizeCell w.text (!noTrim))

/-- Line 49: `work.duplicated(subset=[author, "_text_norm"], keep=False)` marks a
row exactly when at least two working-frame rows share its key. -/
def dupSelectedW (noTrim : Bool) (work : List DupRow) (w : DupRow) : Bool :=
  decide (2 ≤ work.countP (fun x => decide (dupKeyW noTrim x = dupKeyW noTrim w)))

/-- The primary output table (`dup_rows`, lines 49–50): all working-frame
rows whose key occurs at least twice, in dataset order. -/
def dupRowsOut (noTrim : Bool) (rows : List DupRow) : List DupRow :=
  (dupWork rows).filter (dupSelectedW noTrim (dupWork rows))

/-- Ascending lexicographic order on (author, text) keys, the order in
which `groupby` lists its group keys (case-sensitive, on the normalized
strings). -/
def keyLE (a b : String × String) : Prop :=
  pyStrLt a.1 b.1 = true ∨ (a.1 = b.1 ∧ pyStrLe a.2 b.2 = true)

instance : DecidableRel keyLE := fun _ _ =>
  inferInstanceAs (Decidable (_ ∨ _))

/-- The grouped summary before the final sort (lines 53–56):
`dup_rows.groupby([author, "_text_norm"]).size()` — one `(key,
repeat_count)` row per distinct key of the primary output, keys listed
in ascending lexicographic order (`groupby` sorts its keys). -/
def summaryGroups (noTrim : Bool) (rows : List DupRow) : List ((String × String) × Nat) :=
  let dr := dupRowsOut noTrim rows
  (((dr.map (dupKeyW noTrim)).dedup).insertionSort keyLE).map
    (fun k => (k, dr.countP (fun w => decide (dupKeyW noTrim w = k))))

/-- Line 57: `summary.sort_values("repeat_count", ascending=False)` with
the default sort kind, which is not stable: the library guarantees only
that the result is a permutation of the input that is sorted by
descending `repeat_count`; the relative order of equal counts is
unspecified.  Modelled as the relation between input and any permitted
output. -/
def sortByCountDesc (l out : List ((String × String) × Nat)) : Prop :=
  out.Perm l ∧ out.Pairwise (fun a b => b.2 ≤ a.2)

/-- The duplicate script from the column check onward (lines 33–58).
`cols` models `df.columns`.  When a requested column is missing, line 34
raises — but building the message at line 36 evaluates `args.author-col`,
i.e. the attribute `author`, which the argparse namespace does not have
(it has `author_col`), so an `AttributeError` escapes instead of the
intended `SystemExit` listing the available columns. -/
def dupMain (authorCol textCol : String) (cols : List String) (noTrim : Bool)
    (rows : List DupRow) :
    Except PyError (List DupRow × List ((String × String) × Nat)) :=
  if authorCol ∈ cols ∧ textCol ∈ cols then
    .ok (dupRowsOut noTrim rows, summaryGroups noTrim rows)
  else
    .error (.attributeError "Namespace object has no attribute author")

/-! ## split_Cross_Channel_Authors.py -/

/-- A telemetry row: the ordered cells of one sheet row.  A cell is
`none` when null; otherwise `some s` holds its string form.  Reading a
cell past the end of a short row yields `none` (trailing empty cells). -/
abbrev Row := List (Option String)

/-- Python `dict` lookup `m.get(k)` / `m[k]`, over an association list
kept in insertion order. -/
def dget {α : Type} (m : List (String × α)) (k : String) : Option α :=
  (m.find? (fun p => p.1 == k)).map (·.2)

/-- Python `dict` assignment `m[k] = v`: overwrite in place when the key
exists, append otherwise (insertion order preserved). -/
def dset {α : Type} (m : List (String × α)) (k : String) (v : α) : List (String × α) :=
  if m.any (fun p => p.1 == k) then
    m.map (fun p => if p.1 == k then (k, v) else p)
  else
    m ++ [(k, v)]

/-- The loop body of `build_header_index` (lines 43–46): walk the header
cells with their indices, skip `None` cells, and assign
`idx[str(name).strip()] = i`. -/
def buildHeaderIndexAux (idx : List (String × Nat)) (i : Nat) :
    List (Option String) → List (String × Nat)
  | [] => idx
  | none :: rest => buildHeaderIndexAux idx (i + 1) rest
  | some name :: rest => buildHeaderIndexAux (dset idx (pyStrip name) i) (i + 1) rest

/-- Function `build_header_index(header_row)` (lines 41–47). -/
def build_header_index (header : List (Option String)) : List (String × Nat) :=
  buildHeaderIndexAux [] 0 header

/-- Configuration of the split script (the argparse surface the claims
touch): key column names and the `--min-channels` integer. -/
structure SplitArgs where
  authorCol : String
  channelCol : String
  minChannels : Int
deriving DecidableEq

/-- Lines 93–96: the primary key of a row — `None` cells and authors
whose stripped string form is empty are rejected, otherwise the stripped
author string is the key. -/
def splitAuthorKey (authorIdx : Nat) (r : Row) : Option String :=
  match r.getD authorIdx none with
  | none => none
  | some a => if pyStrip a = "" then none else some (pyStrip a)

/-- Lines 98–99: `str(channel).strip() if channel is not None else ""`. -/
def channelNorm (channelIdx : Nat) (r : Row) : String :=
  match r.getD channelIdx none with
  | none => ""
  | some c => pyStrip c

/-- The two dictionaries built by the aggregation pass (lines 86–87):
`channels_by_author` (a set per author, modelled as a list without
duplicates) and `rows_by_author`. -/
structure AggState where
  channelsByAuthor : List (String × List String)
  rowsByAuthor : List (String × List Row)
deriving DecidableEq

/-- Python `set.add`: no-op when the element is present. -/
def setAdd (s : List String) (c : String) : List String :=
  if s.contains c then s else s ++ [c]

/-- One iteration of the aggregation loop (lines 90–103): skip rows with
a missing/empty author; append the row to `rows_by_author[author_s]`;
add the normalized channel to `channels_by_author[author_s]` only when
it is non-empty. -/
def aggStep (ai ci : Nat) (st : AggState) (r : Row) : AggState :=
  match splitAuthorKey ai r with
  | none => st
  | some a =>
    let st1 : AggState :=
      { st with rowsByAuthor := dset st.rowsByAuthor a ((dget st.rowsByAuthor a).getD [] ++ [r]) }
    let c := channelNorm ci r
    if c = "" then st1
    else { st1 with channelsByAuthor := dset st1.channelsByAuthor a (setAdd ((dget st1.channelsByAuthor a).getD []) c) }

/-- The full single pass over the data rows (lines 90–103). -/
def aggregate (ai ci : Nat) (rows : List Row) : AggState :=
  rows.foldl (aggStep ai ci) ⟨[], []⟩

/-- Lines 108–111: the selected authors — every key of
`channels_by_author` whose distinct-channel set has size at least
`min_channels`. -/
def crossAuthors (st : AggState) (thr : Int) : List String :=
  (st.channelsByAuthor.filter (fun p => decide (thr ≤ (p.2.length : Int)))).map (·.1)

/-- Ascending case-insensitive order on author strings:
`sorted(..., key=str.lower)` compares the lowered strings. -/
def lowerLE (a b : String) : Prop :=
  pyStrLe (pyLower a) (pyLower b) = true

instance : DecidableRel lowerLE := fun _ _ =>
  inferInstanceAs (Decidable (_ = _))

/-- Lines 129 and 138: `sorted(cross_authors, key=str.lower)`.  The
Python `set` being iterated has no specified order, so the enumeration
`order` is a parameter; `sorted` is a stable sort on it. -/
def sortedAuthors (order : List String) : List String :=
  order.insertionSort lowerLE

/-- The data rows of the primary output sheet (lines 128–132): for each
selected author in sorted order, all rows of that author. -/
def splitPrimaryRows (st : AggState) (order : List String) : List Row :=
  (sortedAuthors order).flatMap (fun a => (dget st.rowsByAuthor a).getD [])

/-- The split script from the column checks onward (lines 77–103).
Lines 77–80 raise `SystemExit` naming only the missing column; with both
columns resolved, the aggregation pass runs.  The threshold is not
validated anywhere. -/
def splitMain (args : SplitArgs) (header : List (Option String)) (rows : List Row) :
    Except PyError AggState :=
  match dget (build_header_index header) args.authorCol with
  | none => .error (.systemExit ("Author column " ++ args.authorCol ++ " not found in header."))
  | some ai =>
    match dget (build_header_index header) args.channelCol with
    | none => .error (.systemExit ("Channel column " ++ args.channelCol ++ " not found in header."))
    | some ci => .ok (aggregate ai ci rows)

/-- The rows of a given author, in dataset order (the pointwise reading
of `rows_by_author`). -/
def rowsOf (ai : Nat) (rows : List Row) (a : String) : List Row :=
  rows.filter (fun r => decide (splitAuthorKey ai r = some a))

/-- The non-empty normalized channels of the rows of a given author, with
repetitions, in dataset order. -/
def chansRaw (ai ci : Nat) (rows : List Row) (a : String) : List String :=
  (rowsOf ai rows a).filterMap (fun r =>
    if channelNorm ci r = "" then none else some (channelNorm ci r))

/-- The number of distinct non-empty channel values of an author. -/
def distinctCount (ai ci : Nat) (rows : List Row) (a : String) : Nat :=
  (chansRaw ai ci rows a).dedup.length

/-- The multiplicity of a normalized key in a dataset: how many rows
carry that comparison key. -/
def dupCount (noTrim : Bool) (rows : List DupRow) (K : String × String) : Nat :=
  rows.countP (fun r => decide (dupKey noTrim r = K))

/-- The index of the last header cell at position `≥ i` whose trimmed
string form is `k` (`none` cells do not count).  Specification device
for reasoning about `build_header_index`. -/
def lastIdxFrom (i : Nat) (k : String) : List (Option String) → Option Nat
  | [] => none
  | none :: rest => lastIdxFrom (i + 1) k rest
  | some s :: rest =>
    match lastIdxFrom (i + 1) k rest with
    | some j => some j
    | none => if pyStrip s = k then some i else none

/-! ## Order facts about the Python string comparisons -/

theorem charListLt_irrefl : ∀ l, charListLt l l = false
  | [] => rfl
  | a :: l => by
    simp [charListLt, charListLt_irrefl l]

theorem charListLt_trans : ∀ {l1 l2 l3 : List Char},
    charListLt l1 l2 = true → charListLt l2 l3 = true → charListLt l1 l3 = true
  | _, [], _, h1, _ => by simp [charListLt] at h1
  | _, _ :: _, [], _, h2 => by simp [charListLt] at h2
  | [], _ :: _, _ :: _, _, _ => rfl
  | a :: as, b :: bs, c :: cs, h1, h2 => by
    simp only [charListLt, Bool.or_eq_true, Bool.and_eq_true, decide_eq_true_eq,
      beq_iff_eq] at h1 h2 ⊢
    rcases h1 with h1 | ⟨rfl, h1⟩
    · rcases h2 with h2 | ⟨rfl, h2⟩
      · exact Or.inl (lt_trans h1 h2)
      · exact Or.inl h1
    · rcases h2 with h2 | ⟨rfl, h2⟩
      · exact Or.inl h2
      · exact Or.inr ⟨rfl, charListLt_trans h1 h2⟩

theorem charListLt_trichotomy : ∀ l1 l2 : List Char,
    charListLt l1 l2 = true ∨ l1 = l2 ∨ charListLt l2 l1 = true
  | [], [] => Or.inr (Or.inl rfl)
  | [], _ :: _ => Or.inl rfl
  | _ :: _, [] => Or.inr (Or.inr rfl)
  | a :: as, b :: bs => by
    rcases lt_trichotomy a b with hab | rfl | hba
    · exact Or.inl (by simp [charListLt, hab])
    · rcases charListLt_trichotomy as bs with h | rfl | h
      · exact Or.inl (by simp [charListLt, h])
      · exact Or.inr (Or.inl rfl)
      · exact Or.inr (Or.inr (by simp [charListLt, h]))
    · exact Or.inr (Or.inr (by simp [charListLt, hba]))

theorem charListLt_asymm {l1 l2 : List Char} (h : charListLt l1 l2 = true) :
    charListLt l2 l1 = false := by
  cases hc : charListLt l2 l1 with
  | false => rfl
  | true => exact absurd (charListLt_trans h hc) (by simp [charListLt_irrefl])

instance : IsTotal String lowerLE :=
  ⟨fun a b => by
    unfold lowerLE pyStrLe pyStrLt
    cases hc : charListLt (pyLower b).data (pyLower a).data with
    | false => exact Or.inl (by simp [hc])
    | true => exact Or.inr (by simp [charListLt_asymm hc])⟩

instance : IsTrans String lowerLE :=
  ⟨fun a b c hab hbc => by
    unfold lowerLE pyStrLe pyStrLt at *
    simp only [Bool.not_eq_true'] at hab hbc ⊢
    cases hca : charListLt (pyLower c).data (pyLower a).data with
    | false => rfl
    | true =>
      exfalso
      rcases charListLt_trichotomy (pyLower c).data (pyLower b).data with h | he | h
      · exact absurd h (by simp [hbc])
      · rw [he] at hca; exact absurd hca (by simp [hab])
      · exact absurd (charListLt_trans h hca) (by simp [hab])⟩

/-! ## Dictionary lemmas -/

theorem dget_cons {α : Type} (p : String × α) (m : List (String × α)) (k : String) :
    dget (p :: m) k = if p.1 == k then some p.2 else dget m k := by
  simp only [dget, List.find?]
  cases hp : p.1 == k <;> simp [hp]

theorem dget_map_overwrite_ne {α : Type} (m : List (String × α)) (k k2 : String) (v : α)
    (h : k2 ≠ k) :
    dget (m.map (fun p => if p.1 == k then (k, v) else p)) k2 = dget m k2 := by
  induction m with
  | nil => rfl
  | cons p m ih =>
    rw [List.map_cons, dget_cons, dget_cons]
    by_cases hp : p.1 = k
    · have hfp : (if (p.1 == k) = true then (k, v) else p) = (k, v) := if_pos (by simp [hp])
      rw [hfp]
      have h1 : ¬ (((k, v).1 == k2) = true) := by
        simp only [beq_iff_eq]; exact fun he => h he.symm
      have h2 : ¬ ((p.1 == k2) = true) := by
        simp only [beq_iff_eq, hp]; exact fun he => h he.symm
      rw [if_neg h1, if_neg h2]
      exact ih
    · have hfp : (if (p.1 == k) = true then (k, v) else p) = p := if_neg (by simp [hp])
      rw [hfp]
      by_cases hq : p.1 = k2
      · rw [if_pos (by simp [hq] : (p.1 == k2) = true), if_pos (by simp [hq] : (p.1 == k2) = true)]
      · rw [if_neg (by simp [hq] : ¬ ((p.1 == k2) = true)),
          if_neg (by simp [hq] : ¬ ((p.1 == k2) = true))]
        exact ih

theorem dget_map_overwrite_self {α : Type} (m : List (String × α)) (k : String) (v : α)
    (hany : m.any (fun p => p.1 == k) = true) :
    dget (m.map (fun p => if p.1 == k then (k, v) else p)) k = some v := by
  induction m with
  | nil => simp at hany
  | cons p m ih =>
    rw [List.map_cons, dget_cons]
    by_cases hp : p.1 = k
    · have hfp : (if (p.1 == k) = true then (k, v) else p) = (k, v) := if_pos (by simp [hp])
      rw [hfp, if_pos (by simp : (((k, v) : String × α).1 == k) = true)]
    · have hfp : (if (p.1 == k) = true then (k, v) else p) = p := if_neg (by simp [hp])
      rw [hfp, if_neg (by simp [hp] : ¬ ((p.1 == k) = true))]
      apply ih
      rcases (List.any_eq_true).mp hany with ⟨q, hq, hqk⟩
      rcases List.mem_cons.mp hq with hq1 | hq1
      · rw [hq1] at hqk; exact absurd (by simpa using hqk : p.1 = k) hp
      · exact (List.any_eq_true).mpr ⟨q, hq1, hqk⟩

theorem dget_append_single {α : Type} (m : List (String × α)) (k : String) (v : α) (k2 : String) :
    dget (m ++ [(k, v)]) k2 =
      match dget m k2 with
      | some x => some x
      | none => if k == k2 then some v else none := by
  induction m with
  | nil => simp only [List.nil_append, dget_cons]; rfl
  | cons p m ih =>
    rw [List.cons_append, dget_cons, dget_cons]
    by_cases hp : p.1 = k2
    · rw [if_pos (by simp [hp]), if_pos (by simp [hp])]
    · rw [if_neg (by simp [hp]), if_neg (by simp [hp])]
      exact ih

theorem dget_dset {α : Type} (m : List (String × α)) (k : String) (v : α) (k2 : String) :
    dget (dset m k v) k2 = if k2 = k then some v else dget m k2 := by
  unfold dset
  by_cases hk : k2 = k
  · subst hk
    rw [if_pos rfl]
    cases hany : m.any (fun p => p.1 == k2) with
    | true =>
      rw [if_pos rfl]
      exact dget_map_overwrite_self m k2 v hany
    | false =>
      rw [if_neg (by simp : ¬ ((false : Bool) = true))]
      rw [dget_append_single]
      have hfind : List.find? (fun p => p.1 == k2) m = none :=
        List.find?_eq_none.mpr (fun x hx => by
          simp only [List.any_eq_false] at hany
          exact hany x hx)
      have hnone : dget m k2 = none := by simp [dget, hfind]
      rw [hnone, if_pos (by simp : ((k2 == k2) = true))]
  · rw [if_neg hk]
    cases hany : m.any (fun p => p.1 == k) with
    | true =>
      rw [if_pos rfl]
      exact dget_map_overwrite_ne m k k2 v hk
    | false =>
      rw [if_neg (by simp : ¬ ((false : Bool) = true))]
      rw [dget_append_single]
      cases hg : dget m k2 with
      | some x => rfl
      | none =>
        have hne : ¬ ((k == k2) = true) := by
          simp only [beq_iff_eq]; exact fun he => hk he.symm
        simp only [if_neg hne]

theorem keys_dset {α : Type} (m : List (String × α)) (k : String) (v : α) :
    (dset m k v).map (fun p => p.1) =
      if m.any (fun p => p.1 == k) then m.map (fun p => p.1)
      else m.map (fun p => p.1) ++ [k] := by
  unfold dset
  cases hany : m.any (fun p => p.1 == k) with
  | true =>
    rw [if_pos rfl, if_pos rfl, List.map_map]
    apply List.map_congr_left
    intro p _
    by_cases hp : p.1 = k
    · simp [Function.comp, hp]
    · simp [Function.comp, hp]
  | false =>
    rw [if_neg (by simp : ¬ ((false : Bool) = true)),
      if_neg (by simp : ¬ ((false : Bool) = true)), List.map_append]
    rfl

theorem keysNodup_dset {α : Type} (m : List (String × α)) (k : String) (v : α)
    (h : (m.map (fun p => p.1)).Nodup) :
    ((dset m k v).map (fun p => p.1)).Nodup := by
  rw [keys_dset]
  cases hany : m.any (fun p => p.1 == k) with
  | true => rw [if_pos rfl]; exact h
  | false =>
    rw [if_neg (by simp : ¬ ((false : Bool) = true))]
    have hk : k ∉ m.map (fun p => p.1) := by
      intro hmem
      rcases List.mem_map.mp hmem with ⟨p, hp, hpk⟩
      simp only [List.any_eq_false] at hany
      exact hany p hp (by simp [hpk])
    rw [List.nodup_append]
    exact ⟨h, List.nodup_singleton k, fun a ha hb => hk ((List.mem_singleton.mp hb) ▸ ha)⟩

theorem dget_eq_none_iff {α : Type} (m : List (String × α)) (a : String) :
    dget m a = none ↔ a ∉ m.map (fun p => p.1) := by
  simp only [dget, Option.map_eq_none', List.find?_eq_none, List.mem_map]
  constructor
  · rintro h ⟨p, hp, hpa⟩
    exact h p hp (by simp [hpa])
  · intro h p hp hpa
    exact h ⟨p, hp, by simpa using hpa⟩

theorem dget_eq_some_iff {α : Type} {m : List (String × α)}
    (h : (m.map (fun p => p.1)).Nodup) (a : String) (s : α) :
    dget m a = some s ↔ (a, s) ∈ m := by
  induction m with
  | nil => simp [dget]
  | cons p m ih =>
    rw [dget_cons, List.map_cons] at *
    have hnd := (List.nodup_cons.mp h)
    by_cases hp : p.1 = a
    · rw [if_pos (by simp [hp])]
      constructor
      · intro hs
        have h2 : p.2 = s := by simpa using hs
        have hps : p = (a, s) := Prod.ext hp h2
        simp [hps]
      · intro hmem
        rcases List.mem_cons.mp hmem with he | hm
        · rw [← he]
        · exfalso
          apply hnd.1
          rw [hp]
          exact List.mem_map.mpr ⟨(a, s), hm, rfl⟩
    · rw [if_neg (by simp [hp])]
      rw [ih hnd.2]
      constructor
      · exact fun hm => List.mem_cons.mpr (Or.inr hm)
      · intro hm
        rcases List.mem_cons.mp hm with he | hm2
        · exact absurd (by rw [← he] : p.1 = a) hp
        · exact hm2

/-! ## Aggregation lemmas for the split script -/

theorem aggregate_append (ai ci : Nat) (rows : List Row) (r : Row) :
    aggregate ai ci (rows ++ [r]) = aggStep ai ci (aggregate ai ci rows) r := by
  simp [aggregate, List.foldl_append]

theorem dget_agg_rows (ai ci : Nat) (rows : List Row) (a : String) :
    dget (aggregate ai ci rows).rowsByAuthor a =
      if rowsOf ai rows a = [] then none else some (rowsOf ai rows a) := by
  induction rows using List.reverseRecOn with
  | nil => simp [aggregate, rowsOf, dget]
  | append_singleton l r ih =>
    rw [aggregate_append]
    cases hkey : splitAuthorKey ai r with
    | none =>
      have hstep : aggStep ai ci (aggregate ai ci l) r = aggregate ai ci l := by
        simp [aggStep, hkey]
      have hro : rowsOf ai (l ++ [r]) a = rowsOf ai l a := by
        simp [rowsOf, List.filter_append, hkey]
      rw [hstep, hro]
      exact ih
    | some b =>
      have hrb : (aggStep ai ci (aggregate ai ci l) r).rowsByAuthor
          = dset (aggregate ai ci l).rowsByAuthor b
              ((dget (aggregate ai ci l).rowsByAuthor b).getD [] ++ [r]) := by
        by_cases hc : channelNorm ci r = "" <;> simp [aggStep, hkey, hc]
      rw [hrb, dget_dset]
      by_cases hab : a = b
      · subst hab
        rw [if_pos rfl]
        have hro : rowsOf ai (l ++ [r]) a = rowsOf ai l a ++ [r] := by
          simp [rowsOf, List.filter_append, hkey]
        rw [hro, ih]
        by_cases hnil : rowsOf ai l a = [] <;> simp [hnil]
      · rw [if_neg hab]
        have hro : rowsOf ai (l ++ [r]) a = rowsOf ai l a := by
          simp [rowsOf, List.filter_append, hkey, Ne.symm hab]
        rw [hro]
        exact ih

theorem dget_agg_rows_getD (ai ci : Nat) (rows : List Row) (a : String) :
    (dget (aggregate ai ci rows).rowsByAuthor a).getD [] = rowsOf ai rows a := by
  rw [dget_agg_rows]
  by_cases hnil : rowsOf ai rows a = [] <;> simp [hnil]

theorem dget_agg_chans (ai ci : Nat) (rows : List Row) (a : String) :
    dget (aggregate ai ci rows).channelsByAuthor a =
      if chansRaw ai ci rows a = [] then none
      else some ((chansRaw ai ci rows a).foldl setAdd []) := by
  induction rows using List.reverseRecOn with
  | nil => simp [aggregate, chansRaw, rowsOf, dget]
  | append_singleton l r ih =>
    rw [aggregate_append]
    cases hkey : splitAuthorKey ai r with
    | none =>
      have hstep : aggStep ai ci (aggregate ai ci l) r = aggregate ai ci l := by
        simp [aggStep, hkey]
      have hro : rowsOf ai (l ++ [r]) a = rowsOf ai l a := by
        simp [rowsOf, List.filter_append, hkey]
      rw [hstep]
      unfold chansRaw
      rw [hro]
      exact ih
    | some b =>
      by_cases hc : channelNorm ci r = ""
      · have hstep : (aggStep ai ci (aggregate ai ci l) r).channelsByAuthor
            = (aggregate ai ci l).channelsByAuthor := by
          simp [aggStep, hkey, hc]
        rw [hstep]
        have hcr : chansRaw ai ci (l ++ [r]) a = chansRaw ai ci l a := by
          by_cases hab : a = b
          · subst hab
            have hro : rowsOf ai (l ++ [r]) a = rowsOf ai l a ++ [r] := by
              simp [rowsOf, List.filter_append, hkey]
            unfold chansRaw
            rw [hro, List.filterMap_append]
            simp [hc]
          · have hro : rowsOf ai (l ++ [r]) a = rowsOf ai l a := by
              simp [rowsOf, List.filter_append, hkey, Ne.symm hab]
            unfold chansRaw
            rw [hro]
        rw [hcr]
        exact ih
      · have hstep : (aggStep ai ci (aggregate ai ci l) r).channelsByAuthor
            = dset (aggregate ai ci l).channelsByAuthor b
                (setAdd ((dget (aggregate ai ci l).channelsByAuthor b).getD [])
                  (channelNorm ci r)) := by
          simp [aggStep, hkey, hc]
        rw [hstep, dget_dset]
        by_cases hab : a = b
        · subst hab
          rw [if_pos rfl]
          have hcr : chansRaw ai ci (l ++ [r]) a
              = chansRaw ai ci l a ++ [channelNorm ci r] := by
            have hro : rowsOf ai (l ++ [r]) a = rowsOf ai l a ++ [r] := by
              simp [rowsOf, List.filter_append, hkey]
            unfold chansRaw
            rw [hro, List.filterMap_append]
            simp [hc]
          rw [hcr, ih, List.foldl_append]
          by_cases hnil : chansRaw ai ci l a = [] <;> simp [hnil]
        · rw [if_neg hab]
          have hro : rowsOf ai (l ++ [r]) a = rowsOf ai l a := by
            simp [rowsOf, List.filter_append, hkey, Ne.symm hab]
          unfold chansRaw
          rw [hro]
          exact ih

theorem aggStep_keys_nodup (ai ci : Nat) (st : AggState) (r : Row)
    (h1 : (st.channelsByAuthor.map (fun p => p.1)).Nodup)
    (h2 : (st.rowsByAuthor.map (fun p => p.1)).Nodup) :
    ((aggStep ai ci st r).channelsByAuthor.map (fun p => p.1)).Nodup
    ∧ ((aggStep ai ci st r).rowsByAuthor.map (fun p => p.1)).Nodup := by
  cases hkey : splitAuthorKey ai r with
  | none =>
    have hstep : aggStep ai ci st r = st := by simp [aggStep, hkey]
    rw [hstep]
    exact ⟨h1, h2⟩
  | some b =>
    by_cases hc : channelNorm ci r = ""
    · have he : aggStep ai ci st r =
          { st with rowsByAuthor := dset st.rowsByAuthor b ((dget st.rowsByAuthor b).getD [] ++ [r]) } := by
        simp [aggStep, hkey, hc]
      rw [he]
      exact ⟨h1, keysNodup_dset _ _ _ h2⟩
    · have he : aggStep ai ci st r =
          { channelsByAuthor := dset st.channelsByAuthor b
              (setAdd ((dget st.channelsByAuthor b).getD []) (channelNorm ci r)),
            rowsByAuthor := dset st.rowsByAuthor b ((dget st.rowsByAuthor b).getD [] ++ [r]) } := by
        simp [aggStep, hkey, hc]
      rw [he]
      exact ⟨keysNodup_dset _ _ _ h1, keysNodup_dset _ _ _ h2⟩

theorem foldl_aggStep_keys_nodup (ai ci : Nat) :
    ∀ (rows : List Row) (st : AggState),
    (st.channelsByAuthor.map (fun p => p.1)).Nodup →
    (st.rowsByAuthor.map (fun p => p.1)).Nodup →
    ((rows.foldl (aggStep ai ci) st).channelsByAuthor.map (fun p => p.1)).Nodup
    ∧ ((rows.foldl (aggStep ai ci) st).rowsByAuthor.map (fun p => p.1)).Nodup := by
  intro rows
  induction rows with
  | nil => intro st h1 h2; exact ⟨h1, h2⟩
  | cons r rows ih =>
    intro st h1 h2
    rcases aggStep_keys_nodup ai ci st r h1 h2 with ⟨g1, g2⟩
    exact ih (aggStep ai ci st r) g1 g2

theorem aggregate_keys_nodup (ai ci : Nat) (rows : List Row) :
    ((aggregate ai ci rows).channelsByAuthor.map (fun p => p.1)).Nodup
    ∧ ((aggregate ai ci rows).rowsByAuthor.map (fun p => p.1)).Nodup :=
  foldl_aggStep_keys_nodup ai ci rows ⟨[], []⟩ (by simp) (by simp)

theorem mem_setAdd (s : List String) (d c : String) :
    c ∈ setAdd s d ↔ c ∈ s ∨ c = d := by
  unfold setAdd
  by_cases hd : d ∈ s
  · rw [if_pos (by simpa [List.elem_iff] using hd)]
    constructor
    · exact Or.inl
    · rintro (h | rfl)
      · exact h
      · exact hd
  · rw [if_neg (by simpa [List.elem_iff] using hd)]
    simp

theorem nodup_setAdd (s : List String) (d : String) (h : s.Nodup) : (setAdd s d).Nodup := by
  unfold setAdd
  by_cases hd : d ∈ s
  · rw [if_pos (by simpa [List.elem_iff] using hd)]
    exact h
  · rw [if_neg (by simpa [List.elem_iff] using hd)]
    rw [List.nodup_append]
    exact ⟨h, List.nodup_singleton d, fun x hx hx2 => hd ((List.mem_singleton.mp hx2) ▸ hx)⟩

theorem mem_foldl_setAdd : ∀ (cs s : List String) (c : String),
    c ∈ cs.foldl setAdd s ↔ c ∈ s ∨ c ∈ cs := by
  intro cs
  induction cs with
  | nil => simp
  | cons d cs ih =>
    intro s c
    rw [List.foldl_cons, ih, mem_setAdd]
    simp only [List.mem_cons]
    tauto

theorem nodup_foldl_setAdd : ∀ (cs s : List String), s.Nodup → (cs.foldl setAdd s).Nodup := by
  intro cs
  induction cs with
  | nil => exact fun s h => h
  | cons d cs ih => exact fun s h => ih _ (nodup_setAdd s d h)

theorem length_foldl_setAdd (cs : List String) :
    (cs.foldl setAdd []).length = cs.dedup.length := by
  have h1 : (cs.foldl setAdd []).Nodup := nodup_foldl_setAdd cs [] List.nodup_nil
  have h2 : cs.dedup.Nodup := List.nodup_dedup cs
  have hp : (cs.foldl setAdd []).Perm cs.dedup :=
    (List.perm_ext_iff_of_nodup h1 h2).mpr (fun c => by
      rw [mem_foldl_setAdd, List.mem_dedup]; simp)
  exact hp.length_eq

theorem mem_crossAuthors_iff (st : AggState) (thr : Int) (a : String)
    (h : (st.channelsByAuthor.map (fun p => p.1)).Nodup) :
    a ∈ crossAuthors st thr ↔
      ∃ s, dget st.channelsByAuthor a = some s ∧ thr ≤ (s.length : Int) := by
  unfold crossAuthors
  simp only [List.mem_map, List.mem_filter]
  constructor
  · rintro ⟨p, ⟨hpm, hpq⟩, hpa⟩
    refine ⟨p.2, ?_, by simpa using hpq⟩
    rw [dget_eq_some_iff h]
    have hpe : (a, p.2) = p := by
      cases p
      simp only at hpa
      rw [hpa]
    rw [hpe]
    exact hpm
  · rintro ⟨s, hget, hlen⟩
    have hm : (a, s) ∈ st.channelsByAuthor := (dget_eq_some_iff h a s).mp hget
    exact ⟨(a, s), ⟨hm, by simpa using hlen⟩, rfl⟩

theorem crossAuthors_iff (ai ci : Nat) (rows : List Row) (thr : Int) (a : String) :
    a ∈ crossAuthors (aggregate ai ci rows) thr ↔
      (chansRaw ai ci rows a ≠ [] ∧ thr ≤ (distinctCount ai ci rows a : Int)) := by
  rw [mem_crossAuthors_iff _ _ _ (aggregate_keys_nodup ai ci rows).1]
  constructor
  · rintro ⟨s, hget, hlen⟩
    rw [dget_agg_chans] at hget
    by_cases hnil : chansRaw ai ci rows a = []
    · rw [if_pos hnil] at hget; exact absurd hget (by simp)
    · rw [if_neg hnil] at hget
      have hs : s = (chansRaw ai ci rows a).foldl setAdd [] := by
        injection hget.symm
      refine ⟨hnil, ?_⟩
      rw [hs, length_foldl_setAdd] at hlen
      exact hlen
  · rintro ⟨hne, hth⟩
    refine ⟨(chansRaw ai ci rows a).foldl setAdd [], by rw [dget_agg_chans, if_neg hne], ?_⟩
    rw [length_foldl_setAdd]
    exact hth

/-! ## Lemmas for the duplicate script -/

theorem dupKeyW_workRow (noTrim : Bool) (r : DupRow) :
    dupKeyW noTrim (workRow r) = dupKey noTrim r := rfl

theorem dupSelectedW_workRow (noTrim : Bool) (rows : List DupRow) (r : DupRow) :
    dupSelectedW noTrim (dupWork rows) (workRow r)
      = decide (2 ≤ dupCount noTrim rows (dupKey noTrim r)) := by
  simp only [dupSelectedW, dupWork, List.countP_map, dupCount]
  rfl

theorem dupRowsOut_eq (noTrim : Bool) (rows : List DupRow) :
    dupRowsOut noTrim rows
      = (rows.filter (fun r => decide (2 ≤ dupCount noTrim rows (dupKey noTrim r)))).map workRow := by
  unfold dupRowsOut dupWork
  rw [List.filter_map]
  congr 1
  apply List.filter_congr
  intro r _
  exact dupSelectedW_workRow noTrim rows r

theorem countP_dupRowsOut (noTrim : Bool) (rows : List DupRow) (K : String × String) :
    (dupRowsOut noTrim rows).countP (fun w => decide (dupKeyW noTrim w = K))
      = if 2 ≤ dupCount noTrim rows K then dupCount noTrim rows K else 0 := by
  rw [dupRowsOut_eq, List.countP_map, List.countP_filter]
  by_cases h2 : 2 ≤ dupCount noTrim rows K
  · rw [if_pos h2]
    rw [show dupCount noTrim rows K = rows.countP (fun r => decide (dupKey noTrim r = K)) from rfl]
    apply List.countP_congr
    intro r _
    by_cases hk : dupKey noTrim r = K
    · simp [Function.comp, dupKeyW_workRow, hk, h2]
    · simp [Function.comp, dupKeyW_workRow, hk]
  · rw [if_neg h2]
    rw [List.countP_eq_zero]
    intro r _
    simp only [Function.comp, dupKeyW_workRow, Bool.and_eq_true, decide_eq_true_eq, not_and]
    intro hk hcnt
    rw [hk] at hcnt
    exact h2 hcnt

theorem mem_summaryGroups (noTrim : Bool) (rows : List DupRow) (K : String × String) (m : Nat) :
    (K, m) ∈ summaryGroups noTrim rows ↔ (2 ≤ m ∧ dupCount noTrim rows K = m) := by
  unfold summaryGroups
  simp only [List.mem_map]
  constructor
  · rintro ⟨k, hk, heq⟩
    have hkK : k = K := congrArg Prod.fst heq
    subst hkK
    have hm : (dupRowsOut noTrim rows).countP (fun w => decide (dupKeyW noTrim w = k)) = m :=
      congrArg Prod.snd heq
    rw [List.mem_insertionSort, List.mem_dedup, List.mem_map] at hk
    rcases hk with ⟨w, hw, hwk⟩
    have hpos : 0 < (dupRowsOut noTrim rows).countP (fun w2 => decide (dupKeyW noTrim w2 = k)) :=
      List.countP_pos_iff.mpr ⟨w, hw, by simp [hwk]⟩
    rw [countP_dupRowsOut] at hpos hm
    by_cases h2 : 2 ≤ dupCount noTrim rows k
    · rw [if_pos h2] at hm
      exact ⟨hm ▸ h2, hm⟩
    · rw [if_neg h2] at hpos
      exact absurd hpos (by simp)
  · rintro ⟨h2, hdc⟩
    have h2d : 2 ≤ dupCount noTrim rows K := by omega
    refine ⟨K, ?_, ?_⟩
    · rw [List.mem_insertionSort, List.mem_dedup, List.mem_map]
      have hpos : 0 < (dupRowsOut noTrim rows).countP (fun w => decide (dupKeyW noTrim w = K)) := by
        rw [countP_dupRowsOut, if_pos h2d]
        omega
      rcases List.countP_pos_iff.mp hpos with ⟨w, hw, hwk⟩
      exact ⟨w, hw, by simpa using hwk⟩
    · rw [countP_dupRowsOut, if_pos h2d, hdc]

/-! ## Header-index lemmas -/

theorem dget_buildHeaderIndexAux (l : List (Option String)) :
    ∀ (idx : List (String × Nat)) (i : Nat) (k : String),
    dget (buildHeaderIndexAux idx i l) k =
      match lastIdxFrom i k l with
      | some j => some j
      | none => dget idx k := by
  induction l with
  | nil => intro idx i k; rfl
  | cons cell rest ih =>
    intro idx i k
    cases cell with
    | none =>
      simp only [buildHeaderIndexAux, lastIdxFrom]
      exact ih idx (i + 1) k
    | some s =>
      simp only [buildHeaderIndexAux, lastIdxFrom]
      rw [ih (dset idx (pyStrip s) i) (i + 1) k]
      cases hrest : lastIdxFrom (i + 1) k rest with
      | some j => rfl
      | none =>
        simp only []
        rw [dget_dset]
        by_cases hsk : pyStrip s = k
        · rw [if_pos hsk.symm, if_pos hsk]
        · rw [if_neg (fun he => hsk he.symm), if_neg hsk]

theorem lastIdxFrom_some (l : List (Option String)) :
    ∀ (i j : Nat) (k : String), lastIdxFrom i k l = some j →
      i ≤ j ∧ ∃ s, l[j - i]? = some (some s) ∧ pyStrip s = k := by
  induction l with
  | nil =>
    intro i j k h
    exact absurd h (by simp [lastIdxFrom])
  | cons cell rest ih =>
    intro i j k h
    cases cell with
    | none =>
      simp only [lastIdxFrom] at h
      rcases ih (i + 1) j k h with ⟨hij, s, hs, hk⟩
      refine ⟨by omega, s, ?_, hk⟩
      have hshift : j - i = (j - (i + 1)) + 1 := by omega
      rw [hshift]
      simpa using hs
    | some s0 =>
      simp only [lastIdxFrom] at h
      cases hrest : lastIdxFrom (i + 1) k rest with
      | some j2 =>
        rw [hrest] at h
        have hj : j2 = j := by injection h
        subst hj
        rcases ih (i + 1) j2 k hrest with ⟨hij, s, hs, hk⟩
        refine ⟨by omega, s, ?_, hk⟩
        have hshift : j2 - i = (j2 - (i + 1)) + 1 := by omega
        rw [hshift]
        simpa using hs
      | none =>
        rw [hrest] at h
        by_cases hsk : pyStrip s0 = k
        · rw [if_pos hsk] at h
          have hij : i = j := by injection h
          subst hij
          exact ⟨le_refl i, s0, by simp, hsk⟩
        · rw [if_neg hsk] at h
          exact absurd h (by simp)

theorem lastIdxFrom_ge (l : List (Option String)) :
    ∀ (i n : Nat) (s k : String), l[n]? = some (some s) → pyStrip s = k →
      ∃ j, lastIdxFrom i k l = some j ∧ i + n ≤ j := by
  induction l with
  | nil =>
    intro i n s k h _
    simp at h
  | cons cell rest ih =>
    intro i n s k h hk
    cases n with
    | zero =>
      have hc : cell = some s := by simpa using h
      subst hc
      simp only [lastIdxFrom]
      cases hrest : lastIdxFrom (i + 1) k rest with
      | some j =>
        rcases lastIdxFrom_some rest (i + 1) j k hrest with ⟨hij, _⟩
        exact ⟨j, rfl, by omega⟩
      | none =>
        exact ⟨i, by rw [if_pos hk], by omega⟩
    | succ n =>
      have hrest0 : rest[n]? = some (some s) := by simpa using h
      rcases ih (i + 1) n s k hrest0 hk with ⟨j, hj, hij⟩
      cases cell with
      | none =>
        refine ⟨j, ?_, by omega⟩
        simp only [lastIdxFrom]
        exact hj
      | some t =>
        refine ⟨j, ?_, by omega⟩
        simp only [lastIdxFrom]
        rw [hj]

/-! ## Claim theorems -/

/-- C6: the specification says `normalize` maps a null/missing cell to
the empty string.  The source chain `.astype(str).fillna("")`
stringifies the missing value to `"nan"` before `fillna` can replace
anything, so the code returns `"nan"` for a null cell under either trim
setting, diverging from both the spec and the evident intent of the
dead `fillna("")` step. -/
theorem dup_normalize_null_renders_nan :
    normalizeCell none true = "nan" ∧ normalizeCell none false = "nan"
    ∧ normalizeSpecModel none true = "" ∧ normalizeSpecModel none false = ""
    ∧ normalizeCell none true ≠ normalizeSpecModel none true := by
  decide

/-- C7 counterexample: with trimming disabled, the author component of
the comparison key is still whitespace-trimmed (line 41 strips
unconditionally), so two rows whose authors differ only in surrounding
whitespace are matched — and exported — as duplicates of one another. -/
theorem dup_noTrim_author_trimmed_counterexample :
    (dupKey true ⟨some " A ", some "x", []⟩).1 = "A"
    ∧ "A" ≠ " A "
    ∧ dupRowsOut true [⟨some " A ", some "x", []⟩, ⟨some "A", some "x", []⟩]
        = [⟨some "A", some "x", []⟩, ⟨some "A", some "x", []⟩] := by
  decide

/-- C7 amended: the trim flag governs only the text component of the
comparison key.  The author component is always stripped regardless of
the flag, so disabling trimming gives exact-whitespace-sensitive
matching on the text alone, and rows whose authors agree after stripping
always share the author component of the key. -/
theorem dup_trim_flag_scope :
    (∀ (b : Bool) (r : DupRow), (dupKey b r).1 = pyStrip (pandasStr r.author))
    ∧ (∀ r : DupRow, (dupKey true r).2 = pandasStr r.text)
    ∧ (∀ r : DupRow, (dupKey false r).2 = pyStrip (pandasStr r.text))
    ∧ (∀ r1 r2 : DupRow, pyStrip (pandasStr r1.author) = pyStrip (pandasStr r2.author) →
        pandasStr r1.text = pandasStr r2.text → dupKey true r1 = dupKey true r2) := by
  refine ⟨fun b r => rfl, fun r => rfl, fun r => rfl, fun r1 r2 ha ht => ?_⟩
  exact Prod.ext ha ht

/-- Witness for `dup_trim_flag_scope` at a concrete pair of rows. -/
theorem dup_trim_flag_scope_witness :
    dupKey true ⟨some " A ", some "x", []⟩ = dupKey true ⟨some "A", some "x", []⟩ :=
  dup_trim_flag_scope.2.2.2 ⟨some " A ", some "x", []⟩ ⟨some "A", some "x", []⟩
    (by decide) (by decide)

/-- C5: one iteration of the aggregation loop.  A row whose author cell
is missing or strips to the empty string leaves the whole state
untouched; a row with a valid author but an empty channel value is
appended to the row list of that author while the channel sets stay
unchanged and no other row list is affected. -/
theorem split_row_contribution (ai ci : Nat) (st : AggState) (r : Row) :
    ((∀ s, r.getD ai none = some s → pyStrip s = "") → aggStep ai ci st r = st)
    ∧ (∀ a, splitAuthorKey ai r = some a → channelNorm ci r = "" →
        (aggStep ai ci st r).channelsByAuthor = st.channelsByAuthor
        ∧ dget (aggStep ai ci st r).rowsByAuthor a
            = some ((dget st.rowsByAuthor a).getD [] ++ [r])
        ∧ ∀ b, b ≠ a → dget (aggStep ai ci st r).rowsByAuthor b = dget st.rowsByAuthor b) := by
  constructor
  · intro h
    have hkey : splitAuthorKey ai r = none := by
      unfold splitAuthorKey
      cases hc : r.getD ai none with
      | none => rfl
      | some s => simp [h s hc]
    simp [aggStep, hkey]
  · intro a hkey hc
    have hstep : aggStep ai ci st r =
        { st with rowsByAuthor :=
            (dset st.rowsByAuthor a ((dget st.rowsByAuthor a).getD [] ++ [r])) } := by
      simp [aggStep, hkey, hc]
    rw [hstep]
    refine ⟨rfl, ?_, ?_⟩
    · rw [dget_dset, if_pos rfl]
    · intro b hb
      rw [dget_dset, if_neg hb]

/-- Witness for `split_row_contribution`: a whitespace-only author is
skipped; a row with author but no channel is appended to the row list
only. -/
theorem split_row_contribution_witness :
    aggStep 0 1 ⟨[], []⟩ [some "  ", some "c"] = (⟨[], []⟩ : AggState)
    ∧ (aggStep 0 1 ⟨[], []⟩ [some "X"]).channelsByAuthor = ([] : List (String × List String))
    ∧ dget (aggStep 0 1 ⟨[], []⟩ [some "X"]).rowsByAuthor "X" = some [[some "X"]] := by
  refine ⟨?_, ?_, ?_⟩
  · exact (split_row_contribution 0 1 ⟨[], []⟩ [some "  ", some "c"]).1
      (fun s hs => by rw [← Option.some.inj hs]; decide)
  · exact ((split_row_contribution 0 1 ⟨[], []⟩ [some "X"]).2 "X" (by decide) (by decide)).1
  · exact (((split_row_contribution 0 1 ⟨[], []⟩ [some "X"]).2 "X" (by decide)
      (by decide)).2.1).trans (by decide)

/-- C10: header-to-index resolution.  Every name the index resolves
points at a non-null header cell whose trimmed string form is exactly
that name (null header cells are silently skipped), and the resolved
index is at least the position of every header cell trimming to that
name — i.e. duplicated names resolve to the rightmost such column. -/
theorem split_header_index_resolution (header : List (Option String)) (k : String) :
    (∀ j, dget (build_header_index header) k = some j →
      ∃ s, header[j]? = some (some s) ∧ pyStrip s = k)
    ∧ (∀ (i : Nat) (s : String), header[i]? = some (some s) → pyStrip s = k →
      ∃ j, dget (build_header_index header) k = some j ∧ i ≤ j) := by
  have hb : dget (build_header_index header) k =
      match lastIdxFrom 0 k header with
      | some j => some j
      | none => dget ([] : List (String × Nat)) k :=
    dget_buildHeaderIndexAux header [] 0 k
  constructor
  · intro j hj
    rw [hb] at hj
    cases hlast : lastIdxFrom 0 k header with
    | none =>
      rw [hlast] at hj
      exact absurd hj (by simp [dget])
    | some j2 =>
      rw [hlast] at hj
      have hjj : j2 = j := by injection hj
      subst hjj
      rcases lastIdxFrom_some header 0 j2 k hlast with ⟨_, s, hs, hk⟩
      rw [Nat.sub_zero] at hs
      exact ⟨s, hs, hk⟩
  · intro i s hi hk
    rcases lastIdxFrom_ge header 0 i s k hi hk with ⟨j, hj, hij⟩
    refine ⟨j, ?_, by omega⟩
    rw [hb, hj]

/-- Witness for `split_header_index_resolution`: in a header whose first
and fourth cells both trim to `"a"` (with a null cell in between), the
name resolves to index 3, past the occurrence at index 0. -/
theorem split_header_index_resolution_witness :
    (∃ s, ([some " a ", none, some "x", some "a"] : List (Option String))[3]?
        = some (some s) ∧ pyStrip s = "a")
    ∧ (∃ j, dget (build_header_index [some " a ", none, some "x", some "a"]) "a" = some j
        ∧ 0 ≤ j) := by
  constructor
  · exact (split_header_index_resolution [some " a ", none, some "x", some "a"] "a").1 3
      (by decide)
  · exact (split_header_index_resolution [some " a ", none, some "x", some "a"] "a").2 0 " a "
      (by decide) (by decide)

/-- C2: threshold boundary of the partition-cardinality analysis.  For
any threshold ≥ 1, an author whose set of distinct non-empty channel
values has size exactly `threshold − 1` is not selected, and one whose
set has size exactly `threshold` is selected. -/
theorem split_threshold_boundary (ai ci : Nat) (rows : List Row) (thr : Int) (a : String)
    (h1 : 1 ≤ thr) :
    (((distinctCount ai ci rows a : Int) = thr - 1) →
        a ∉ crossAuthors (aggregate ai ci rows) thr)
    ∧ (((distinctCount ai ci rows a : Int) = thr) →
        a ∈ crossAuthors (aggregate ai ci rows) thr) := by
  constructor
  · intro hd hmem
    rcases (crossAuthors_iff ai ci rows thr a).mp hmem with ⟨_, hth⟩
    omega
  · intro hd
    rw [crossAuthors_iff]
    refine ⟨?_, by omega⟩
    intro hnil
    rw [show distinctCount ai ci rows a = 0 from by simp [distinctCount, hnil]] at hd
    omega

/-- Witness for `split_threshold_boundary`: with threshold 2, an author
on two distinct channels is selected, an author on one channel is not. -/
theorem split_threshold_boundary_witness :
    "X" ∈ crossAuthors (aggregate 0 1
        [[some "X", some "c1"], [some "X", some "c2"], [some "Y", some "c1"]]) 2
    ∧ "Y" ∉ crossAuthors (aggregate 0 1
        [[some "X", some "c1"], [some "X", some "c2"], [some "Y", some "c1"]]) 2 :=
  ⟨(split_threshold_boundary 0 1
      [[some "X", some "c1"], [some "X", some "c2"], [some "Y", some "c1"]] 2 "X"
      (by decide)).2 (by decide),
   (split_threshold_boundary 0 1
      [[some "X", some "c1"], [some "X", some "c2"], [some "Y", some "c1"]] 2 "Y"
      (by decide)).1 (by decide)⟩

/-- C9 counterexample: a configured threshold strictly below 1 is
accepted without any error — the run completes and, with threshold 0,
the author is even selected.  No `InvalidThreshold` failure exists, at
configuration time or anywhere else. -/
theorem threshold_zero_accepted_counterexample :
    splitMain ⟨"author", "channel_name", 0⟩ [some "author", some "channel_name"]
        [[some "X", some "c1"]]
      = .ok (aggregate 0 1 [[some "X", some "c1"]])
    ∧ crossAuthors (aggregate 0 1 [[some "X", some "c1"]]) 0 = ["X"]
    ∧ ((0 : Int) < 1) := by
  decide

/-- C9 amended: the split script never validates the threshold.
Whenever both key columns resolve, the run proceeds to aggregation
regardless of the configured threshold, and any threshold ≤ 0 selects
every author that has at least one distinct non-empty channel. -/
theorem split_threshold_unvalidated :
    (∀ (st : AggState) (thr : Int), thr ≤ 0 →
        crossAuthors st thr = st.channelsByAuthor.map (fun p => p.1))
    ∧ (∀ (args : SplitArgs) (header : List (Option String)) (rows : List Row) (ai ci : Nat),
        dget (build_header_index header) args.authorCol = some ai →
        dget (build_header_index header) args.channelCol = some ci →
        splitMain args header rows = .ok (aggregate ai ci rows)) := by
  constructor
  · intro st thr hthr
    unfold crossAuthors
    have hf : st.channelsByAuthor.filter (fun p => decide (thr ≤ (p.2.length : Int)))
        = st.channelsByAuthor :=
      List.filter_eq_self.mpr (fun p _ => by
        simp only [decide_eq_true_eq]
        omega)
    rw [hf]
  · intro args header rows ai ci h1 h2
    unfold splitMain
    rw [h1, h2]

/-- Witness for `split_threshold_unvalidated` at threshold −1 and a
resolvable header with threshold 0. -/
theorem split_threshold_unvalidated_witness :
    crossAuthors ⟨[("X", ["c1"])], []⟩ (-1) = ["X"]
    ∧ splitMain ⟨"author", "channel_name", 0⟩ [some "author", some "channel_name"] []
        = .ok (aggregate 0 1 []) := by
  constructor
  · exact (split_threshold_unvalidated.1 ⟨[("X", ["c1"])], []⟩ (-1) (by decide)).trans (by decide)
  · exact split_threshold_unvalidated.2 ⟨"author", "channel_name", 0⟩
      [some "author", some "channel_name"] [] 0 1 (by decide) (by decide)

/-- C8 counterexample: on a header whose only column is `writer`,
requesting author column `author` makes the split script fail with a
message that names only the missing column — the available column
`writer` appears nowhere in it — and makes the duplicate script fail
with an attribute-lookup error (the message-building f-string references
the nonexistent `args.author`), which likewise names no columns. -/
theorem missing_column_message_counterexample :
    splitMain ⟨"author", "channel_name", 2⟩ [some "writer"] []
      = .error (.systemExit "Author column author not found in header.")
    ∧ strContainsSub "Author column author not found in header." "writer" = false
    ∧ dupMain "author" "text" ["writer"] false []
      = .error (.attributeError "Namespace object has no attribute author")
    ∧ strContainsSub "Namespace object has no attribute author" "writer" = false := by
  decide

/-- C8 amended: when a requested key column is missing from the header,
both analyses fail before any aggregation of data rows — the failure is
independent of the data rows.  Neither error lists the available
columns: the split script names only the missing column, and the
duplicate script raises an attribute-lookup error while building its
message. -/
theorem missing_column_fail_fast :
    (∀ (aCol tCol : String) (cols : List String) (noTrim : Bool) (rows rows2 : List DupRow),
        ¬(aCol ∈ cols ∧ tCol ∈ cols) →
        dupMain aCol tCol cols noTrim rows
            = .error (.attributeError "Namespace object has no attribute author")
        ∧ dupMain aCol tCol cols noTrim rows = dupMain aCol tCol cols noTrim rows2)
    ∧ (∀ (args : SplitArgs) (header : List (Option String)) (rows rows2 : List Row),
        (dget (build_header_index header) args.authorCol = none
          ∨ dget (build_header_index header) args.channelCol = none) →
        (∃ m, splitMain args header rows = .error (.systemExit m))
        ∧ splitMain args header rows = splitMain args header rows2) := by
  constructor
  · intro aCol tCol cols noTrim rows rows2 h
    unfold dupMain
    rw [if_neg h, if_neg h]
    exact ⟨rfl, rfl⟩
  · intro args header rows rows2 h
    unfold splitMain
    cases ha : dget (build_header_index header) args.authorCol with
    | none => exact ⟨⟨_, rfl⟩, rfl⟩
    | some ai =>
      rcases h with h | h
      · rw [ha] at h
        exact absurd h (by simp)
      · rw [h]
        exact ⟨⟨_, rfl⟩, rfl⟩

/-- Witness for `missing_column_fail_fast` at a concrete header lacking
the requested columns, with two different row lists. -/
theorem missing_column_fail_fast_witness :
    dupMain "author" "text" ["writer"] false [⟨some "A", some "x", []⟩]
      = .error (.attributeError "Namespace object has no attribute author")
    ∧ splitMain ⟨"author", "channel_name", 2⟩ [some "writer"] []
      = splitMain ⟨"author", "channel_name", 2⟩ [some "writer"] [[some "X", some "c"]] :=
  ⟨(missing_column_fail_fast.1 "author" "text" ["writer"] false
      [⟨some "A", some "x", []⟩] [] (by decide)).1,
   (missing_column_fail_fast.2 ⟨"author", "channel_name", 2⟩ [some "writer"] []
      [[some "X", some "c"]] (Or.inl (by decide))).2⟩

/-- C1: multiplicity completeness.  For every key of multiplicity
`m ≥ 2`, the rows of the primary output for that key are exactly the images
(under the author-normalizing column overwrite) of all `m` dataset rows
carrying the key — first occurrence included, in dataset order — and the
summary contains the row `(key, m)`, which survives into every
admissible final sorting of the summary. -/
theorem dup_multiplicity_complete (noTrim : Bool) (rows : List DupRow) (K : String × String)
    (h : 2 ≤ dupCount noTrim rows K) :
    (dupRowsOut noTrim rows).filter (fun w => decide (dupKeyW noTrim w = K))
      = (rows.filter (fun r => decide (dupKey noTrim r = K))).map workRow
    ∧ (K, dupCount noTrim rows K) ∈ summaryGroups noTrim rows
    ∧ ∀ out, sortByCountDesc (summaryGroups noTrim rows) out →
        (K, dupCount noTrim rows K) ∈ out := by
  refine ⟨?_, ?_, ?_⟩
  · rw [dupRowsOut_eq, List.filter_map]
    congr 1
    rw [List.filter_filter]
    apply List.filter_congr
    intro r _
    by_cases hk : dupKey noTrim r = K
    · simp [Function.comp, dupKeyW_workRow, hk, h]
    · simp [Function.comp, dupKeyW_workRow, hk]
  · exact (mem_summaryGroups noTrim rows K (dupCount noTrim rows K)).mpr ⟨h, rfl⟩
  · intro out hout
    rw [hout.1.mem_iff]
    exact (mem_summaryGroups noTrim rows K (dupCount noTrim rows K)).mpr ⟨h, rfl⟩

/-- Witness for `dup_multiplicity_complete`: key `("A", "hi")` has
multiplicity 2 (the second matching row only after trimming its text). -/
theorem dup_multiplicity_complete_witness :
    (dupRowsOut false [⟨some "A", some "hi", []⟩, ⟨some "B", some "yo", []⟩,
        ⟨some "A", some " hi ", []⟩]).filter (fun w => decide (dupKeyW false w = ("A", "hi")))
      = ([⟨some "A", some "hi", []⟩, ⟨some "B", some "yo", []⟩,
          ⟨some "A", some " hi ", []⟩].filter
            (fun r => decide (dupKey false r = ("A", "hi")))).map workRow
    ∧ (("A", "hi"), dupCount false [⟨some "A", some "hi", []⟩, ⟨some "B", some "yo", []⟩,
        ⟨some "A", some " hi ", []⟩] ("A", "hi"))
      ∈ summaryGroups false [⟨some "A", some "hi", []⟩, ⟨some "B", some "yo", []⟩,
          ⟨some "A", some " hi ", []⟩] :=
  ⟨(dup_multiplicity_complete false [⟨some "A", some "hi", []⟩, ⟨some "B", some "yo", []⟩,
      ⟨some "A", some " hi ", []⟩] ("A", "hi") (by decide)).1,
   (dup_multiplicity_complete false [⟨some "A", some "hi", []⟩, ⟨some "B", some "yo", []⟩,
      ⟨some "A", some " hi ", []⟩] ("A", "hi") (by decide)).2.1⟩

/-- C3 counterexample: the final summary sort (default, unstable kind)
guarantees only descending `repeat_count`; for a dataset with two
equal-size groups, the output listing the keys in descending
lexicographic order is admissible, so equal-size groups need not appear
in ascending lexicographic key order as claimed. -/
theorem dup_summary_tie_order_counterexample :
    sortByCountDesc
      (summaryGroups false [⟨some "a", some "x", []⟩, ⟨some "b", some "x", []⟩,
        ⟨some "a", some "x", []⟩, ⟨some "b", some "x", []⟩])
      [(("b", "x"), 2), (("a", "x"), 2)]
    ∧ ¬ ([(("b", "x"), 2), (("a", "x"), 2)] : List ((String × String) × Nat)).Pairwise
        (fun g1 g2 => g2.2 < g1.2 ∨ (g1.2 = g2.2 ∧ keyLE g1.1 g2.1)) := by
  refine ⟨⟨by decide, ?_⟩, ?_⟩
  · simp [List.pairwise_cons]
  · intro hp
    have hcl := (List.pairwise_cons.mp hp).1 (("a", "x"), 2) (by simp)
    revert hcl
    decide

/-- C3 amended: any admissible output of the final summary sort is
ordered by descending `repeat_count` and contains exactly the rows
`(key, m)` for the keys of multiplicity `m ≥ 2`; the relative order of
equal-size groups is left unspecified by the unstable sort. -/
theorem dup_summary_order_amended (noTrim : Bool) (rows : List DupRow)
    (out : List ((String × String) × Nat))
    (h : sortByCountDesc (summaryGroups noTrim rows) out) :
    out.Pairwise (fun g1 g2 => g2.2 ≤ g1.2)
    ∧ ∀ K m, ((K, m) ∈ out ↔ (2 ≤ m ∧ dupCount noTrim rows K = m)) := by
  refine ⟨h.2, fun K m => ?_⟩
  rw [h.1.mem_iff]
  exact mem_summaryGroups noTrim rows K m

/-- Witness for `dup_summary_order_amended` on a one-group dataset. -/
theorem dup_summary_order_amended_witness :
    ([((("A", "hi") : String × String), 2)]).Pairwise (fun g1 g2 => g2.2 ≤ g1.2)
    ∧ ((("A", "hi"), 2) ∈ [((("A", "hi") : String × String), 2)] ↔
        (2 ≤ 2 ∧ dupCount false [⟨some "A", some "hi", []⟩, ⟨some "A", some "hi", []⟩]
          ("A", "hi") = 2)) := by
  have h := dup_summary_order_amended false
      [⟨some "A", some "hi", []⟩, ⟨some "A", some "hi", []⟩]
      [(("A", "hi"), 2)] ⟨by decide, by simp [List.pairwise_cons]⟩
  exact ⟨h.1, h.2 ("A", "hi") 2⟩

/-- C4: ordering of the primary output of the split script.  The selected
authors (however the selected-author set is enumerated) are listed in
ascending case-insensitive order; the emitted data rows are the
concatenation, author block by author block, of the rows of each author in
original dataset order (each block is a sublist of the dataset); and the
listed authors are exactly the selected ones. -/
theorem split_output_order (ai ci : Nat) (rows : List Row) (thr : Int) (order : List String)
    (h : order.Perm (crossAuthors (aggregate ai ci rows) thr)) :
    (sortedAuthors order).Pairwise lowerLE
    ∧ splitPrimaryRows (aggregate ai ci rows) order
        = (sortedAuthors order).flatMap (fun a => rowsOf ai rows a)
    ∧ (∀ a ∈ sortedAuthors order, List.Sublist (rowsOf ai rows a) rows)
    ∧ (∀ a, a ∈ sortedAuthors order ↔ a ∈ crossAuthors (aggregate ai ci rows) thr) := by
  refine ⟨?_, ?_, ?_, ?_⟩
  · exact List.sorted_insertionSort lowerLE order
  · unfold splitPrimaryRows
    exact congrArg (List.flatMap (sortedAuthors order))
      (funext (dget_agg_rows_getD ai ci rows))
  · intro a _
    exact List.filter_sublist rows
  · intro a
    unfold sortedAuthors
    rw [List.mem_insertionSort]
    exact h.mem_iff

/-- Witness for `split_output_order`: two cross-channel authors, the
enumeration order reversed relative to the sorted output. -/
theorem split_output_order_witness :
    (sortedAuthors ["b", "X"]).Pairwise lowerLE
    ∧ splitPrimaryRows (aggregate 0 1 [[some "X", some "c1"], [some "X", some "c2"],
        [some "b", some "c1"], [some "b", some "c2"]]) ["b", "X"]
      = (sortedAuthors ["b", "X"]).flatMap (fun a => rowsOf 0 [[some "X", some "c1"],
          [some "X", some "c2"], [some "b", some "c1"], [some "b", some "c2"]] a) := by
  have h := split_output_order 0 1 [[some "X", some "c1"], [some "X", some "c2"],
      [some "b", some "c1"], [some "b", some "c2"]] 2 ["b", "X"] (by decide)
  exact ⟨h.1, h.2.1⟩

end ArgentTelemetry
